import Mathlib

/-!
# Verification of the link-cut tree implementation (`src/lib.rs`)

Shallow embedding of the repository's link-cut tree.  Nodes live in an
arena (`Forest := List LCTNode`) and are addressed by their index; the
`Rc`/`Weak` pointers of the Rust source become plain indices (`Rc::ptr_eq`
becomes index equality, and `Weak::upgrade` always succeeds because every
node of the arena is externally retained, as in all of the spec's
scenarios).  Panics (`unwrap` on a missing value, a failed `assert!`) are
modelled as `none`; the two loops (`splay`, `expose`) take explicit fuel
and return `none` on exhaustion, so a `some` result certifies both
termination and absence of panics on that run.
-/

/-- One node of the link-cut tree, mirroring `struct LCTNode`:
`parent: Option<WeakNode>`, `children: [Option<RcNode>; 2]`
(slot 0 = left, slot 1 = right), `len: usize` (the subtree-cardinality
aggregate). -/
structure LCTNode where
  parent : Option Nat
  left : Option Nat
  right : Option Nat
  len : Nat
deriving Repr, DecidableEq

instance : Inhabited LCTNode := ⟨⟨none, none, none, 0⟩⟩

/-- The arena of nodes; a node is the index of its entry. -/
abbrev Forest := List LCTNode

/-- Constructor `LinkCutTree::new()`: a fresh singleton node (no parent, no children,
aggregate 1). -/
def newNode : LCTNode := ⟨none, none, none, 1⟩

/-- A forest of `n` freshly created singleton nodes. -/
def initForest (n : Nat) : Forest := List.replicate n newNode

/-- Read a node of the arena (out-of-range reads yield the inert default,
which is never reachable from in-range nodes of well-formed states). -/
def getN (σ : Forest) (v : Nat) : LCTNode := σ.getD v default

/-- Write a node of the arena. -/
def setN (σ : Forest) (v : Nat) (n : LCTNode) : Forest := σ.set v n

/-- Slot `children[d]` of a node value. -/
def childN (n : LCTNode) (d : Nat) : Option Nat :=
  if d = 0 then n.left else n.right

/-- Replace `children[d]` of a node value. -/
def setChildN (n : LCTNode) (d : Nat) (c : Option Nat) : LCTNode :=
  if d = 0 then { n with left := c } else { n with right := c }

/-- Accessor `self.parent()` (the `Weak::upgrade` always succeeds, see above). -/
def parentOf (σ : Forest) (v : Nat) : Option Nat := (getN σ v).parent

/-- Accessor `self.child(dir)` without the `assert!` (only ever used with
`dir ∈ {0,1}` inside the library). -/
def childF (σ : Forest) (v : Nat) (d : Nat) : Option Nat := childN (getN σ v) d

/-- Accessor `self.len()` — the `aggregate()` accessor of the spec. -/
def lenOf (σ : Forest) (v : Nat) : Nat := (getN σ v).len

/-- Store `*self.parent_mut() = p`. -/
def setParent (σ : Forest) (v : Nat) (p : Option Nat) : Forest :=
  setN σ v { getN σ v with parent := p }

/-- Store `*self.child_mut(d) = c`. -/
def setChild (σ : Forest) (v : Nat) (d : Nat) (c : Option Nat) : Forest :=
  setN σ v (setChildN (getN σ v) d c)

/-- Helper for `child.as_ref().map(|node| node.len()).unwrap_or(0)`. -/
def optLen (σ : Forest) (o : Option Nat) : Nat :=
  match o with
  | none => 0
  | some c => lenOf σ c

/-- Accessors `self.child(dir)` / `self.child_mut(dir)` with the `assert!(dir < 2)`:
`none` models the panic of a failed assertion. -/
def childChecked (σ : Forest) (v : Nat) (d : Nat) : Option (Option Nat) :=
  if d < 2 then some (childF σ v d) else none

/-- Mutator `self.child_mut(dir)` followed by a store, with the `assert!(dir < 2)`. -/
def childMutChecked (σ : Forest) (v : Nat) (d : Nat) (c : Option Nat) :
    Option Forest :=
  if d < 2 then some (setChild σ v d c) else none

/-- Method `self.update()`: `len = 1; for child in children { len += child.len() }`;
recomputes the aggregate from the two current children. -/
def update (σ : Forest) (v : Nat) : Forest :=
  setN σ v { getN σ v with
    len := 1 + optLen σ (childF σ v 0) + optLen σ (childF σ v 1) }

/-- Method `self.dir()`: the slot at which `self`'s parent stores `self`
(`Rc::ptr_eq` is index equality), or `none` when there is no parent or
the edge is light. -/
def dirOf (σ : Forest) (v : Nat) : Option Nat :=
  match parentOf σ v with
  | none => none
  | some p =>
    if childF σ p 0 = some v then some 0
    else if childF σ p 1 = some v then some 1
    else none

/-- Method `self.is_path_root()`. -/
def isPathRoot (σ : Forest) (v : Nat) : Bool := (dirOf σ v).isNone

/-- Method `self.path_parent()`: `self.dir().and_then(|_| self.parent())`. -/
def pathParent (σ : Forest) (v : Nat) : Option Nat :=
  (dirOf σ v).bind fun _ => parentOf σ v

/-- Method `self.rotate()`, statement by statement.  The two `unwrap`s of the
source are guarded: when `dir()` is `some`, the parent exists, and when
the parent's `dir()` is `some`, the grandparent exists — the dead arms
return the state unchanged. -/
def rotate (σ : Forest) (x : Nat) : Forest :=
  match dirOf σ x with
  | none => σ
  | some d =>
    match parentOf σ x with
    | none => σ
    | some p =>
      -- let parent_weak = self.parent_mut().take().unwrap();
      let σ1 := setParent σ x none
      -- let child = self.child_mut(1 ^ dir).take();
      let c := childF σ1 x (1 ^^^ d)
      let σ2 := setChild σ1 x (1 ^^^ d) none
      -- if let Some(child) = child.as_ref() { *child.parent_mut() = parent }
      let σ3 := match c with
        | some cc => setParent σ2 cc (some p)
        | none => σ2
      -- *parent.child_mut(dir) = child.clone();
      let σ4 := setChild σ3 p d c
      -- if let Some(parent_dir) = parent.dir() { ancestor.child[pd] = self }
      let σ5 := match dirOf σ4 p with
        | some pd =>
          match parentOf σ4 p with
          | some g => setChild σ4 g pd (some x)
          | none => σ4
        | none => σ4
      -- *self.parent_mut() = parent.parent_mut().replace(self.weak());
      let gp := parentOf σ5 p
      let σ6 := setParent σ5 p (some x)
      let σ7 := setParent σ6 x gp
      -- parent.update(); self.update();
      let σ8 := update σ7 p
      update σ8 x

/-- Method `self.splay()` with fuel: one fuel unit per iteration of the
`while let Some(parent) = self.path_parent()` loop; `none` on exhaustion. -/
def splayFuel : Nat → Forest → Nat → Option Forest
  | 0, _, _ => none
  | f + 1, σ, x =>
    match pathParent σ x with
    | none => some σ
    | some p =>
      let σ1 :=
        if isPathRoot σ p then σ
        else if dirOf σ x = dirOf σ p then rotate σ p
        else rotate σ x
      let σ2 := rotate σ1 x
      splayFuel f σ2 x

/-- Method `self.expose()` with fuel: one fuel unit per iteration of the `loop`;
the inner `splay` calls receive the current fuel as well. -/
def exposeFuel : Nat → Forest → Nat → Option Forest
  | 0, _, _ => none
  | f + 1, σ, v =>
    match splayFuel (f + 1) σ v with
    | none => none
    | some σ1 =>
      -- self.child_mut(1).take(); self.update();
      let σ2 := setChild σ1 v 1 none
      let σ3 := update σ2 v
      -- if let Some(parent) = self.parent() { ... } else { break }
      match parentOf σ3 v with
      | none => some σ3
      | some p =>
        match splayFuel (f + 1) σ3 p with
        | none => none
        | some σ4 =>
          -- parent.child_mut(1).replace(self.rc()); parent.update();
          let σ5 := setChild σ4 p 1 (some v)
          let σ6 := update σ5 p
          exposeFuel f σ6 v

/-- Method `self.link(new_parent)`: `expose` both, then
`self.parent_mut().replace(new_parent.weak())`;
`new_parent.child_mut(1).replace(self.rc())`. -/
def linkFuel (f : Nat) (σ : Forest) (v np : Nat) : Option Forest :=
  match exposeFuel f σ v with
  | none => none
  | some σ1 =>
    match exposeFuel f σ1 np with
    | none => none
    | some σ2 =>
      let σ3 := setParent σ2 v (some np)
      some (setChild σ3 np 1 (some v))

/-- Method `self.cut()`: `self.child_mut(0).take().unwrap().parent_mut().take()`.
The `take` empties the left slot, the `unwrap` panics (`none`) when the
slot was empty, otherwise the detached child's parent is cleared.
Note that — unlike the spec's description — no `expose` happens first. -/
def cut (σ : Forest) (v : Nat) : Option Forest :=
  let c := childF σ v 0
  let σ1 := setChild σ v 0 none
  match c with
  | none => none
  | some cc => some (setParent σ1 cc none)

/-! ## The represented real forest (spec glossary)

The spec's §3/§4.4 and glossary define the real tree represented by a
state: each splay tree's in-order lists a contiguous root-to-descendant
path of the real tree (left = closer to the real root), and a light edge
from a path's top to another tree places that path below its path
parent.  The real parent of a node is therefore its in-order predecessor
within its splay tree, or — when it is the leftmost node of its splay
tree, i.e. the top of its preferred path — the node referenced by the
parent pointer of its splay tree's root.  These definitions are modelled
from the spec (the source has no explicit real-parent query); they are
only evaluated on concrete states. -/

/-- Modelled from the spec: the rightmost (in-order last) node of the
splay subtree rooted at `v`; `none` when the fuel runs out. -/
def specRightmost : Nat → Forest → Nat → Option Nat
  | 0, _, _ => none
  | f + 1, σ, v =>
    match childF σ v 1 with
    | none => some v
    | some c => specRightmost f σ c

/-- Modelled from the spec: walk up from a node with no left child; the
first ancestor reached through a right slot is its in-order predecessor,
and if the splay root is reached only through left slots the node is the
top of its path, whose real parent is the root's (light) parent pointer.
Outer `none` means the fuel ran out. -/
def specRealParentUp : Nat → Forest → Nat → Option (Option Nat)
  | 0, _, _ => none
  | f + 1, σ, u =>
    match dirOf σ u with
    | some 0 =>
      match parentOf σ u with
      | some p => specRealParentUp f σ p
      | none => none
    | some _ => some (parentOf σ u)
    | none => some (parentOf σ u)

/-- Modelled from the spec: the parent of `v` in the represented real
forest (see above).  Outer `none` means the fuel ran out. -/
def specRealParent (f : Nat) (σ : Forest) (v : Nat) : Option (Option Nat) :=
  match childF σ v 0 with
  | some l => (specRightmost f σ l).map some
  | none => specRealParentUp f σ v

/-! ## Concrete scenario evaluations

Node ids: in `initForest n`, node `0` is "A", `1` is "B", `2` is "C".
All runs below use fuel 9, far above the handful of loop iterations these
three-node scenarios need; a `some` result certifies the run terminated
without a panic. -/

/-- C1 — the claim says `cut(self)` first performs `expose(self)` and
then detaches the left child.  The source's `cut` performs no `expose` at
all: after `link(B, A)` (so B is not a real-tree root and, per the claim,
`cut(B)` would expose B and detach its left child A), the code's `cut(B)`
panics on `unwrap`, because B's current splay left slot is empty and no
`expose` was run to fill it. -/
theorem cut_skips_expose_panics :
    (do
      let s1 ← linkFuel 9 (initForest 2) 1 0
      cut s1 1) = none := by decide

/-- C2 — the claim says that after `expose(v)`, `is_path_root(v)`
holds and `v.aggregate()` equals the node count of the real root-to-`v`
path.  On the spec's own scenario (A ← B ← C built by `link(B,A)`;
`link(C,B)`, so the real path from the root to C has 3 nodes), the code's
`expose(C)` leaves C a path root but with aggregate 1, because `rotate`
never re-attaches the old parent as a splay child (the edge degenerates
to a light edge), so the exposed splay tree of C contains C alone. -/
theorem expose_aggregate_wrong :
    (do
      let s1 ← linkFuel 9 (initForest 3) 1 0
      let s2 ← linkFuel 9 s1 2 1
      let s3 ← exposeFuel 9 s2 2
      pure (isPathRoot s3 2, lenOf s3 2)) = some (true, 1) := by decide

/-- C7 — the spec's scenario claims `expose(C)` yields aggregate 3
and the subsequent `cut(C)` succeeds (after which B and C expose to
aggregates 2 and 1).  The code yields aggregate 1 at C, and `cut(C)`
then panics on `unwrap` because C has no splay left child. -/
theorem scenario_abc_fails :
    (do
      let s1 ← linkFuel 9 (initForest 3) 1 0
      let s2 ← linkFuel 9 s1 2 1
      let s3 ← exposeFuel 9 s2 2
      pure (lenOf s3 2, (cut s3 2).isSome)) = some (1, false) := by decide

/-- C10 — the claim says `splay`/`expose` never change the
represented real forest.  After `link(B, A)` the real parent of B is A
and A is a real root; after `splay(B)` the code leaves A as a light-edge
child of B (because `rotate` drops the parent from the splay tree), so
the represented real parent of A becomes B and B becomes a real root:
the ancestor relation of the real tree is inverted. -/
theorem splay_changes_real_forest :
    (do
      let s1 ← linkFuel 9 (initForest 2) 1 0
      let s2 ← splayFuel 9 s1 1
      pure (specRealParent 9 s1 1, specRealParent 9 s1 0,
            specRealParent 9 s2 1, specRealParent 9 s2 0)) =
      some (some (some 0), some none, some none, some (some 1)) := by decide

/-- C5 (counterexample) — the claim says `link` on a node that is not
a real-tree root crashes on an unwrap of a missing value.  Concretely:
after `link(B, A)`, B is not a real-tree root, yet `link(B, C)` runs to
completion (`isSome`) — `link`'s code path contains no fallible unwrap,
so no crash occurs. -/
theorem link_nonroot_no_crash :
    (do
      let s1 ← linkFuel 9 (initForest 3) 1 0
      linkFuel 9 s1 1 2).isSome = true := by decide

/-- C5 (amended) — `cut` on a node whose splay left slot is empty —
in particular on a freshly created real-tree root — panics on an unwrap
of a missing value, while `link` on a non-root completes without any
crash. -/
theorem cut_root_crashes_link_nonroot_does_not :
    (∀ (σ : Forest) (v : Nat), childF σ v 0 = none → cut σ v = none) ∧
    (do
      let s1 ← linkFuel 9 (initForest 3) 1 0
      linkFuel 9 s1 1 2).isSome = true := by
  refine ⟨fun σ v h => ?_, by decide⟩
  simp [cut, h]

/-- Witness for `cut_root_crashes_link_nonroot_does_not`: a freshly
created singleton node is a real-tree root with an empty left slot, and
`cut` on it indeed panics. -/
theorem cut_root_crashes_witness :
    childF (initForest 1) 0 0 = none ∧ cut (initForest 1) 0 = none :=
  ⟨by decide, cut_root_crashes_link_nonroot_does_not.1 (initForest 1) 0 (by decide)⟩

/-- C8 — `child(dir)`/`child_mut(dir)` assert `dir < 2`: with
`dir ∉ {0,1}` both fail immediately (the assertion panics), with
`dir ∈ {0,1}` the read returns the optional child handle of that slot
and the write succeeds; neither fails. -/
theorem child_dir_checked (σ : Forest) (v d : Nat) (c : Option Nat) :
    (¬ (d = 0 ∨ d = 1) →
      childChecked σ v d = none ∧ childMutChecked σ v d c = none) ∧
    ((d = 0 ∨ d = 1) →
      childChecked σ v d = some (childF σ v d) ∧
        (childMutChecked σ v d c).isSome = true) := by
  constructor
  · intro h
    have hd : ¬ d < 2 := by omega
    simp [childChecked, childMutChecked, hd]
  · intro h
    have hd : d < 2 := by omega
    simp [childChecked, childMutChecked, hd]

/-- Witness for `child_dir_checked` at `d = 2` (failing) and `d = 1`
(succeeding) on a singleton forest. -/
theorem child_dir_checked_witness :
    (childChecked (initForest 1) 0 2 = none ∧
      childMutChecked (initForest 1) 0 2 none = none) ∧
    (childChecked (initForest 1) 0 1 = some (childF (initForest 1) 0 1) ∧
      (childMutChecked (initForest 1) 0 1 none).isSome = true) :=
  ⟨(child_dir_checked (initForest 1) 0 2 none).1 (by omega),
   (child_dir_checked (initForest 1) 0 1 none).2 (by omega)⟩

/-! ## Arena lemmas -/

theorem length_setN (σ : Forest) (u : Nat) (n : LCTNode) :
    (setN σ u n).length = σ.length := List.length_set σ u n

theorem setN_oob (σ : Forest) (u : Nat) (n : LCTNode) (h : ¬ u < σ.length) :
    setN σ u n = σ :=
  List.set_eq_of_length_le (Nat.le_of_not_lt h)

theorem getN_setN (σ : Forest) (u : Nat) (n : LCTNode) (v : Nat) :
    getN (setN σ u n) v = if u = v ∧ u < σ.length then n else getN σ v := by
  unfold getN setN
  simp only [List.getD_eq_getElem?_getD, List.getElem?_set]
  rcases eq_or_ne u v with rfl | h
  · by_cases hl : u < σ.length
    · simp [hl]
    · simp [hl, List.getElem?_eq_none (Nat.le_of_not_lt hl)]
  · simp [h]

theorem getN_oob (σ : Forest) (v : Nat) (h : ¬ v < σ.length) :
    getN σ v = default := by
  unfold getN
  simp [List.getD_eq_getElem?_getD, List.getElem?_eq_none (Nat.le_of_not_lt h)]

theorem parentOf_oob (σ : Forest) (v : Nat) (h : ¬ v < σ.length) :
    parentOf σ v = none := by
  unfold parentOf
  rw [getN_oob σ v h]
  rfl

theorem childF_oob (σ : Forest) (v : Nat) (d : Nat) (h : ¬ v < σ.length) :
    childF σ v d = none := by
  simp only [childF, getN_oob σ v h]
  unfold childN
  split <;> rfl

theorem parentOf_lt (σ : Forest) (v p : Nat) (h : parentOf σ v = some p) :
    v < σ.length := by
  by_contra hv
  rw [parentOf_oob σ v hv] at h
  exact Option.noConfusion h

theorem childF_lt (σ : Forest) (v d c : Nat) (h : childF σ v d = some c) :
    v < σ.length := by
  by_contra hv
  rw [childF_oob σ v d hv] at h
  exact Option.noConfusion h

theorem childN_setChildN (n : LCTNode) (e e' : Nat) (c : Option Nat)
    (he : e < 2) (he' : e' < 2) :
    childN (setChildN n e c) e' = if e' = e then c else childN n e' := by
  unfold childN setChildN
  interval_cases e <;> interval_cases e' <;> simp

theorem parent_setChildN (n : LCTNode) (e : Nat) (c : Option Nat) :
    (setChildN n e c).parent = n.parent := by
  unfold setChildN; split <;> rfl

theorem len_setChildN (n : LCTNode) (e : Nat) (c : Option Nat) :
    (setChildN n e c).len = n.len := by
  unfold setChildN; split <;> rfl

/-! Field-level characterizations of the three primitive writes. -/

theorem parentOf_setParent (σ : Forest) (u : Nat) (q : Option Nat) (v : Nat) :
    parentOf (setParent σ u q) v =
      if u = v ∧ u < σ.length then q else parentOf σ v := by
  unfold parentOf setParent
  rw [getN_setN]
  split <;> rfl

theorem parentOf_setParent_self (σ : Forest) (u : Nat) (q : Option Nat)
    (h : u < σ.length) : parentOf (setParent σ u q) u = q := by
  rw [parentOf_setParent]; simp [h]

theorem parentOf_setParent_ne (σ : Forest) (u : Nat) (q : Option Nat) (v : Nat)
    (h : u ≠ v) : parentOf (setParent σ u q) v = parentOf σ v := by
  rw [parentOf_setParent]; simp [h]

theorem childF_setParent (σ : Forest) (u : Nat) (q : Option Nat) (v e : Nat) :
    childF (setParent σ u q) v e = childF σ v e := by
  unfold childF setParent
  rw [getN_setN]
  split
  · next h => rw [h.1]; rfl
  · rfl

theorem lenOf_setParent (σ : Forest) (u : Nat) (q : Option Nat) (v : Nat) :
    lenOf (setParent σ u q) v = lenOf σ v := by
  unfold lenOf setParent
  rw [getN_setN]
  split
  · next h => rw [h.1]
  · rfl

theorem parentOf_setChild (σ : Forest) (u e : Nat) (c : Option Nat) (v : Nat) :
    parentOf (setChild σ u e c) v = parentOf σ v := by
  unfold parentOf setChild
  rw [getN_setN]
  split
  · next h => rw [parent_setChildN, h.1]
  · rfl

theorem lenOf_setChild (σ : Forest) (u e : Nat) (c : Option Nat) (v : Nat) :
    lenOf (setChild σ u e c) v = lenOf σ v := by
  unfold lenOf setChild
  rw [getN_setN]
  split
  · next h => rw [len_setChildN, h.1]
  · rfl

theorem childF_setChild (σ : Forest) (u e : Nat) (c : Option Nat) (v e' : Nat)
    (he : e < 2) (he' : e' < 2) :
    childF (setChild σ u e c) v e' =
      if u = v ∧ u < σ.length ∧ e' = e then c else childF σ v e' := by
  unfold childF setChild
  rw [getN_setN]
  by_cases h : u = v ∧ u < σ.length
  · rw [if_pos h, childN_setChildN _ _ _ _ he he']
    by_cases h' : e' = e
    · rw [if_pos h', if_pos ⟨h.1, h.2, h'⟩]
    · rw [if_neg h', if_neg (fun hc => h' hc.2.2), h.1]
  · rw [if_neg h, if_neg (fun hc => h ⟨hc.1, hc.2.1⟩)]

theorem childF_setChild_ne (σ : Forest) (u e : Nat) (c : Option Nat) (v e' : Nat)
    (h : u ≠ v) : childF (setChild σ u e c) v e' = childF σ v e' := by
  unfold childF setChild
  rw [getN_setN, if_neg (fun hc => h hc.1)]

theorem parentOf_update (σ : Forest) (u v : Nat) :
    parentOf (update σ u) v = parentOf σ v := by
  unfold parentOf update
  rw [getN_setN]
  split
  · next h => rw [h.1]
  · rfl

theorem childF_update (σ : Forest) (u v e : Nat) :
    childF (update σ u) v e = childF σ v e := by
  unfold childF update
  rw [getN_setN]
  split
  · next h =>
    rw [h.1]
    unfold childN
    split <;> rfl
  · rfl

theorem lenOf_update (σ : Forest) (u v : Nat) :
    lenOf (update σ u) v =
      if u = v ∧ u < σ.length then
        1 + optLen σ (childF σ u 0) + optLen σ (childF σ u 1)
      else lenOf σ v := by
  unfold lenOf update
  rw [getN_setN]
  split <;> rfl

theorem length_setParent (σ : Forest) (u : Nat) (q : Option Nat) :
    (setParent σ u q).length = σ.length := length_setN ..

theorem length_setChild (σ : Forest) (u e : Nat) (c : Option Nat) :
    (setChild σ u e c).length = σ.length := length_setN ..

theorem length_update (σ : Forest) (u : Nat) :
    (update σ u).length = σ.length := length_setN ..

/-! ## Structural invariants

`childOK` is the mutual parent-child consistency of the spec's §3: a
node listed in someone's `children` has that node as its `parent`.
`notBoth` says the two slots of a node never hold the same child.
`Ranked` is acyclicity of the parent graph, witnessed by a rank
function that strictly decreases from child to parent.  `lenInv` says
every aggregate is at least 1.  `noSlot σ v` says no slot anywhere
holds `v` (`v`'s incoming edge, if any, is light). -/

def childOK (σ : Forest) : Prop :=
  ∀ p d c, childF σ p d = some c → parentOf σ c = some p

def notBoth (σ : Forest) : Prop :=
  ∀ q z, ¬ (childF σ q 0 = some z ∧ childF σ q 1 = some z)

def Ranked (σ : Forest) : Prop :=
  ∃ rk : Nat → ℚ, ∀ v u, parentOf σ v = some u → rk u < rk v

def lenInv (σ : Forest) : Prop := ∀ v, v < σ.length → 1 ≤ lenOf σ v

def GInv (σ : Forest) : Prop := childOK σ ∧ notBoth σ ∧ Ranked σ ∧ lenInv σ

def noSlot (σ : Forest) (v : Nat) : Prop := ∀ q e, childF σ q e ≠ some v

/-! Elementary consequences. -/

theorem childF_of_ne_zero (σ : Forest) (v e : Nat) (h : e ≠ 0) :
    childF σ v e = childF σ v 1 := by
  unfold childF childN
  rw [if_neg h, if_neg one_ne_zero]

theorem dirOf_lt (σ : Forest) (x d : Nat) (h : dirOf σ x = some d) : d < 2 := by
  unfold dirOf at h
  rcases hp : parentOf σ x with _ | p <;> simp only [hp] at h
  · exact Option.noConfusion h
  · split at h
    · obtain rfl := Option.some.inj h
      omega
    · split at h
      · obtain rfl := Option.some.inj h
        omega
      · exact Option.noConfusion h

theorem dirOf_slot (σ : Forest) (x d p : Nat) (h : dirOf σ x = some d)
    (hp : parentOf σ x = some p) : childF σ p d = some x := by
  unfold dirOf at h
  simp only [hp] at h
  split at h
  · next h0 =>
    obtain rfl := Option.some.inj h
    exact h0
  · split at h
    · next h1 =>
      obtain rfl := Option.some.inj h
      exact h1
    · exact Option.noConfusion h

theorem dirOf_none_of_parent_none (σ : Forest) (x : Nat)
    (h : parentOf σ x = none) : dirOf σ x = none := by
  unfold dirOf
  rw [h]

theorem dirOf_none_slots (σ : Forest) (x p : Nat) (h : dirOf σ x = none)
    (hp : parentOf σ x = some p) : ∀ e, childF σ p e ≠ some x := by
  intro e
  unfold dirOf at h
  simp only [hp] at h
  split at h
  · exact Option.noConfusion h
  · split at h
    · exact Option.noConfusion h
    · next h0 h1 =>
      rcases Nat.eq_zero_or_pos e with rfl | he
      · exact h0
      · rw [childF_of_ne_zero σ p e (by omega)]
        exact h1

theorem noSlot_of_dir_none (σ : Forest) (x : Nat) (hOK : childOK σ)
    (h : dirOf σ x = none) : noSlot σ x := by
  intro q e hq
  exact dirOf_none_slots σ x q h (hOK q e x hq) e hq

theorem noSlot_of_parent_none (σ : Forest) (x : Nat) (hOK : childOK σ)
    (h : parentOf σ x = none) : noSlot σ x :=
  noSlot_of_dir_none σ x hOK (dirOf_none_of_parent_none σ x h)

theorem dirOf_congr (σ' σ : Forest) (q : Nat)
    (hp : parentOf σ' q = parentOf σ q)
    (hc : ∀ u e, parentOf σ q = some u → childF σ' u e = childF σ u e) :
    dirOf σ' q = dirOf σ q := by
  unfold dirOf
  rcases hu : parentOf σ q with _ | u
  · simp [hp, hu]
  · simp only [hp, hu]
    rw [hc u 0 hu, hc u 1 hu]

/-! ## Characterization of `rotate`

Under the structural invariants, one `rotate` changes exactly: the far
child moves to the parent's vacated slot, the rotated node takes the
parent's place in the grandparent's slot (when that edge was heavy),
the parent becomes a light child of the rotated node, and the two
aggregates are recomputed. -/

theorem xor_lt_two (d : Nat) (h : d < 2) : 1 ^^^ d < 2 := by
  interval_cases d <;> decide

theorem xor_ne (d : Nat) (h : d < 2) : 1 ^^^ d ≠ d := by
  interval_cases d <;> decide

theorem ne_of_rk_lt {rk : Nat → ℚ} {a b : Nat} (h : rk a < rk b) : a ≠ b :=
  fun he => absurd h (by rw [he]; exact lt_irrefl _)

theorem rotate_unfold (σ : Forest) (x d p : Nat)
    (hdir : dirOf σ x = some d) (hpar : parentOf σ x = some p) :
    rotate σ x =
      (let σ1 := setParent σ x none
       let c := childF σ1 x (1 ^^^ d)
       let σ2 := setChild σ1 x (1 ^^^ d) none
       let σ3 := match c with
         | some cc => setParent σ2 cc (some p)
         | none => σ2
       let σ4 := setChild σ3 p d c
       let σ5 := match dirOf σ4 p with
         | some pd =>
           match parentOf σ4 p with
           | some g => setChild σ4 g pd (some x)
           | none => σ4
         | none => σ4
       let gp := parentOf σ5 p
       let σ6 := setParent σ5 p (some x)
       let σ7 := setParent σ6 x gp
       let σ8 := update σ7 p
       update σ8 x) := by
  conv_lhs => rw [rotate]
  rw [hdir, hpar]

theorem rotate_fields (σ : Forest) (x d p : Nat)
    (hOK : childOK σ) (rk : Nat → ℚ)
    (hrk : ∀ v u, parentOf σ v = some u → rk u < rk v)
    (hdir : dirOf σ x = some d) (hpar : parentOf σ x = some p) :
    (∀ v, parentOf (rotate σ x) v =
      if v = x then parentOf σ p
      else if v = p then some x
      else if childF σ x (1 ^^^ d) = some v then some p
      else parentOf σ v) ∧
    (∀ v e, e < 2 → childF (rotate σ x) v e =
      if parentOf σ p = some v ∧ dirOf σ p = some e then some x
      else if v = x ∧ e = 1 ^^^ d then none
      else if v = p ∧ e = d then childF σ x (1 ^^^ d)
      else childF σ v e) ∧
    (∀ v, lenOf (rotate σ x) v = lenOf σ v ∨ 1 ≤ lenOf (rotate σ x) v) ∧
    (rotate σ x).length = σ.length := by
  have hd2 : d < 2 := dirOf_lt σ x d hdir
  have he2 : 1 ^^^ d < 2 := xor_lt_two d hd2
  have hed : 1 ^^^ d ≠ d := xor_ne d hd2
  have hslot : childF σ p d = some x := dirOf_slot σ x d p hdir hpar
  have hxlt : x < σ.length := parentOf_lt σ x p hpar
  have hplt : p < σ.length := childF_lt σ p d x hslot
  have hrkxp : rk p < rk x := hrk x p hpar
  have hxp : x ≠ p := fun h => absurd hrkxp (by rw [h]; exact lt_irrefl _)
  have hpx : p ≠ x := Ne.symm hxp
  rw [rotate_unfold σ x d p hdir hpar]
  simp only [childF_setParent]
  rcases hc : childF σ x (1 ^^^ d) with _ | cc <;> simp only [hc]
  · -- no far child
    have hp4 : parentOf (setChild (setChild (setParent σ x none) x (1 ^^^ d) none) p d none) p
        = parentOf σ p := by
      rw [parentOf_setChild, parentOf_setChild, parentOf_setParent_ne σ x none p hxp]
    have hcong : ∀ u e, parentOf σ p = some u →
        childF (setChild (setChild (setParent σ x none) x (1 ^^^ d) none) p d none) u e
          = childF σ u e := by
      intro u e hu
      have hrku : rk u < rk p := hrk p u hu
      have hup : u ≠ p := ne_of_rk_lt hrku
      have hux : u ≠ x := ne_of_rk_lt (hrku.trans hrkxp)
      rw [childF_setChild_ne _ p d none u e (Ne.symm hup),
        childF_setChild_ne _ x (1 ^^^ d) none u e (Ne.symm hux), childF_setParent]
    have hd4 : dirOf (setChild (setChild (setParent σ x none) x (1 ^^^ d) none) p d none) p
        = dirOf σ p := dirOf_congr _ σ p hp4 hcong
    rw [hd4]
    rcases hpd : dirOf σ p with _ | pd
    · -- parent is a path root: no grandparent slot update
      simp only [hpd, hp4]
      refine ⟨?_, ?_, ?_, ?_⟩
      · intro v
        by_cases hvx : v = x
        · subst hvx
          simp [parentOf_update, parentOf_setParent, parentOf_setChild,
            length_setParent, length_setChild, length_update, hxlt, hplt, hpx]
        · by_cases hvp : v = p
          · subst hvp
            simp [parentOf_update, parentOf_setParent, parentOf_setChild,
              length_setParent, length_setChild, length_update, hxlt, hplt, hpx, hxp, hvx]
          · simp [parentOf_update, parentOf_setParent, parentOf_setChild,
              length_setParent, length_setChild, length_update, hvx, hvp,
              Ne.symm hvx, Ne.symm hvp]
      · intro v e he
        by_cases hvx : v = x
        · subst hvx
          by_cases hee : e = 1 ^^^ d
          · subst hee
            simp [childF_update, childF_setParent, childF_setChild,
              length_setParent, length_setChild, length_update, he, hd2, he2,
              hxlt, hplt, hpx, hxp, hed]
          · simp [childF_update, childF_setParent, childF_setChild,
              length_setParent, length_setChild, length_update, he, hd2, he2,
              hxlt, hplt, hpx, hxp, hed, hee, Ne.symm hee]
        · by_cases hvp : v = p
          · subst hvp
            by_cases hede : e = d
            · subst hede
              simp [childF_update, childF_setParent, childF_setChild,
                length_setParent, length_setChild, length_update, he, hd2, he2,
                hxlt, hplt, hpx, hxp, hed, hvx]
            · simp [childF_update, childF_setParent, childF_setChild,
                length_setParent, length_setChild, length_update, he, hd2, he2,
                hxlt, hplt, hpx, hxp, hed, hvx, hede, Ne.symm hede]
          · simp [childF_update, childF_setParent, childF_setChild_ne,
              Ne.symm hvx, Ne.symm hvp, hvx, hvp, hpd]
      · intro v
        by_cases hvx : v = x
        · subst hvx
          right
          simp [lenOf_update, length_update, length_setParent, length_setChild,
            hxlt, hpx, hxp]
          omega
        · by_cases hvp : v = p
          · subst hvp
            right
            simp [lenOf_update, length_update, length_setParent, length_setChild,
              hplt, hvx, hxp, hpx]
            omega
          · left
            simp [lenOf_update, lenOf_setParent, lenOf_setChild,
              length_update, length_setParent, length_setChild, hvx, hvp,
              Ne.symm hvx, Ne.symm hvp]
      · simp [length_update, length_setParent, length_setChild]
    · -- parent is itself a heavy child: the grandparent slot moves to x
      rcases hgp : parentOf σ p with _ | g
      · rw [dirOf_none_of_parent_none σ p hgp] at hpd
        exact Option.noConfusion hpd
      · have hpd2 : pd < 2 := dirOf_lt σ p pd hpd
        have hpdslot : childF σ g pd = some p := dirOf_slot σ p pd g hpd hgp
        have hglt : g < σ.length := childF_lt σ g pd p hpdslot
        have hrkg : rk g < rk p := hrk p g hgp
        have hgne_p : g ≠ p := ne_of_rk_lt hrkg
        have hgne_x : g ≠ x := ne_of_rk_lt (hrkg.trans hrkxp)
        simp only [hpd, hp4, hgp, parentOf_setChild]
        refine ⟨?_, ?_, ?_, ?_⟩
        · intro v
          by_cases hvx : v = x
          · subst hvx
            simp [parentOf_update, parentOf_setParent, parentOf_setChild,
              length_setParent, length_setChild, length_update, hxlt, hplt, hpx, hgp]
          · by_cases hvp : v = p
            · subst hvp
              simp [parentOf_update, parentOf_setParent, parentOf_setChild,
                length_setParent, length_setChild, length_update, hxlt, hplt, hpx,
                hxp, hvx]
            · simp [parentOf_update, parentOf_setParent, parentOf_setChild,
                length_setParent, length_setChild, length_update, hvx, hvp,
                Ne.symm hvx, Ne.symm hvp]
        · intro v e he
          by_cases hvg : v = g
          · subst hvg
            by_cases hepd : e = pd
            · subst hepd
              simp [childF_update, childF_setParent, childF_setChild,
                length_setParent, length_setChild, length_update, he, hd2, he2,
                hpd2, hglt, hxlt, hplt, hgne_p, hgne_x, Ne.symm hgne_p,
                Ne.symm hgne_x, hed]
            · simp [childF_update, childF_setParent, childF_setChild,
                length_setParent, length_setChild, length_update, he, hd2, he2,
                hpd2, hglt, hxlt, hplt, hgne_p, hgne_x, Ne.symm hgne_p,
                Ne.symm hgne_x, hed, hepd, Ne.symm hepd]
          · by_cases hvx : v = x
            · subst hvx
              by_cases hee : e = 1 ^^^ d
              · subst hee
                simp [childF_update, childF_setParent, childF_setChild,
                  length_setParent, length_setChild, length_update, he, hd2, he2,
                  hpd2, hxlt, hplt, hpx, hxp, hed, hgne_x, Ne.symm hgne_x, hvg,
                  Ne.symm hvg]
              · simp [childF_update, childF_setParent, childF_setChild,
                  length_setParent, length_setChild, length_update, he, hd2, he2,
                  hpd2, hxlt, hplt, hpx, hxp, hed, hee, Ne.symm hee, hgne_x,
                  Ne.symm hgne_x, hvg, Ne.symm hvg]
            · by_cases hvp : v = p
              · subst hvp
                by_cases hede : e = d
                · subst hede
                  simp [childF_update, childF_setParent, childF_setChild,
                    length_setParent, length_setChild, length_update, he, hd2,
                    he2, hpd2, hxlt, hplt, hpx, hxp, hed, hgne_p, Ne.symm hgne_p,
                    hvx, hvg, Ne.symm hvg]
                · simp [childF_update, childF_setParent, childF_setChild,
                    length_setParent, length_setChild, length_update, he, hd2,
                    he2, hpd2, hxlt, hplt, hpx, hxp, hed, hede, Ne.symm hede,
                    hgne_p, Ne.symm hgne_p, hvx, hvg, Ne.symm hvg]
              · simp [childF_update, childF_setParent, childF_setChild_ne,
                  Ne.symm hvx, Ne.symm hvp, Ne.symm hvg, hvx, hvp, hvg, hpd]
        · intro v
          by_cases hvx : v = x
          · subst hvx
            right
            simp [lenOf_update, length_update, length_setParent, length_setChild,
              hxlt, hpx, hxp]
            omega
          · by_cases hvp : v = p
            · subst hvp
              right
              simp [lenOf_update, length_update, length_setParent, length_setChild,
                hplt, hvx, hxp, hpx]
              omega
            · left
              simp [lenOf_update, lenOf_setParent, lenOf_setChild,
                length_update, length_setParent, length_setChild, hvx, hvp,
                Ne.symm hvx, Ne.symm hvp]
        · simp [length_update, length_setParent, length_setChild]
  · -- the far child exists and is reparented to p
    have hccpar : parentOf σ cc = some x := hOK x (1 ^^^ d) cc hc
    have hcclt : cc < σ.length := parentOf_lt σ cc x hccpar
    have hrkcc : rk x < rk cc := hrk cc x hccpar
    have hccx : cc ≠ x := (ne_of_rk_lt hrkcc).symm
    have hccp : cc ≠ p := (ne_of_rk_lt (hrkxp.trans hrkcc)).symm
    have hp4 : parentOf (setChild (setParent (setChild (setParent σ x none) x
        (1 ^^^ d) none) cc (some p)) p d (some cc)) p = parentOf σ p := by
      rw [parentOf_setChild, parentOf_setParent_ne _ cc _ p hccp,
        parentOf_setChild, parentOf_setParent_ne σ x none p hxp]
    have hcong : ∀ u e, parentOf σ p = some u →
        childF (setChild (setParent (setChild (setParent σ x none) x
          (1 ^^^ d) none) cc (some p)) p d (some cc)) u e = childF σ u e := by
      intro u e hu
      have hrku : rk u < rk p := hrk p u hu
      have hup : u ≠ p := ne_of_rk_lt hrku
      have hux : u ≠ x := ne_of_rk_lt (hrku.trans hrkxp)
      rw [childF_setChild_ne _ p d (some cc) u e (Ne.symm hup), childF_setParent,
        childF_setChild_ne _ x (1 ^^^ d) none u e (Ne.symm hux), childF_setParent]
    have hd4 : dirOf (setChild (setParent (setChild (setParent σ x none) x
        (1 ^^^ d) none) cc (some p)) p d (some cc)) p = dirOf σ p :=
      dirOf_congr _ σ p hp4 hcong
    rw [hd4]
    rcases hpd : dirOf σ p with _ | pd
    · -- parent is a path root: no grandparent slot update
      simp only [hpd, hp4]
      refine ⟨?_, ?_, ?_, ?_⟩
      · intro v
        by_cases hvx : v = x
        · subst hvx
          simp [parentOf_update, parentOf_setParent, parentOf_setChild,
            length_setParent, length_setChild, length_update, hxlt, hplt, hcclt,
            hpx, hccx, Ne.symm hccx]
        · by_cases hvp : v = p
          · subst hvp
            simp [parentOf_update, parentOf_setParent, parentOf_setChild,
              length_setParent, length_setChild, length_update, hxlt, hplt, hcclt,
              hpx, hxp, hvx, hccp, Ne.symm hccp]
          · by_cases hvcc : v = cc
            · subst hvcc
              simp [parentOf_update, parentOf_setParent, parentOf_setChild,
                length_setParent, length_setChild, length_update, hxlt, hplt,
                hcclt, hccx, hccp, Ne.symm hccx, Ne.symm hccp]
            · simp [parentOf_update, parentOf_setParent, parentOf_setChild,
                length_setParent, length_setChild, length_update, hvx, hvp, hvcc,
                Ne.symm hvx, Ne.symm hvp, Ne.symm hvcc]
      · intro v e he
        by_cases hvx : v = x
        · subst hvx
          by_cases hee : e = 1 ^^^ d
          · subst hee
            simp [childF_update, childF_setParent, childF_setChild,
              length_setParent, length_setChild, length_update, he, hd2, he2,
              hxlt, hplt, hpx, hxp, hed]
          · simp [childF_update, childF_setParent, childF_setChild,
              length_setParent, length_setChild, length_update, he, hd2, he2,
              hxlt, hplt, hpx, hxp, hed, hee, Ne.symm hee]
        · by_cases hvp : v = p
          · subst hvp
            by_cases hede : e = d
            · subst hede
              simp [childF_update, childF_setParent, childF_setChild,
                length_setParent, length_setChild, length_update, he, hd2, he2,
                hxlt, hplt, hpx, hxp, hed, hvx]
            · simp [childF_update, childF_setParent, childF_setChild,
                length_setParent, length_setChild, length_update, he, hd2, he2,
                hxlt, hplt, hpx, hxp, hed, hvx, hede, Ne.symm hede]
          · simp [childF_update, childF_setParent, childF_setChild_ne,
              Ne.symm hvx, Ne.symm hvp, hvx, hvp, hpd]
      · intro v
        by_cases hvx : v = x
        · subst hvx
          right
          simp [lenOf_update, length_update, length_setParent, length_setChild,
            hxlt, hpx, hxp]
          omega
        · by_cases hvp : v = p
          · subst hvp
            right
            simp [lenOf_update, length_update, length_setParent, length_setChild,
              hplt, hvx, hxp, hpx]
            omega
          · left
            simp [lenOf_update, lenOf_setParent, lenOf_setChild,
              length_update, length_setParent, length_setChild, hvx, hvp,
              Ne.symm hvx, Ne.symm hvp]
      · simp [length_update, length_setParent, length_setChild]
    · -- parent is itself a heavy child: the grandparent slot moves to x
      rcases hgp : parentOf σ p with _ | g
      · rw [dirOf_none_of_parent_none σ p hgp] at hpd
        exact Option.noConfusion hpd
      · have hpd2 : pd < 2 := dirOf_lt σ p pd hpd
        have hpdslot : childF σ g pd = some p := dirOf_slot σ p pd g hpd hgp
        have hglt : g < σ.length := childF_lt σ g pd p hpdslot
        have hrkg : rk g < rk p := hrk p g hgp
        have hgne_p : g ≠ p := ne_of_rk_lt hrkg
        have hgne_x : g ≠ x := ne_of_rk_lt (hrkg.trans hrkxp)
        have hgne_cc : g ≠ cc := ne_of_rk_lt (hrkg.trans (hrkxp.trans hrkcc))
        simp only [hpd, hp4, hgp, parentOf_setChild]
        refine ⟨?_, ?_, ?_, ?_⟩
        · intro v
          by_cases hvx : v = x
          · subst hvx
            simp [parentOf_update, parentOf_setParent, parentOf_setChild,
              length_setParent, length_setChild, length_update, hxlt, hplt, hcclt,
              hpx, hccx, Ne.symm hccx, hgp]
          · by_cases hvp : v = p
            · subst hvp
              simp [parentOf_update, parentOf_setParent, parentOf_setChild,
                length_setParent, length_setChild, length_update, hxlt, hplt,
                hcclt, hpx, hxp, hvx, hccp, Ne.symm hccp]
            · by_cases hvcc : v = cc
              · subst hvcc
                simp [parentOf_update, parentOf_setParent, parentOf_setChild,
                  length_setParent, length_setChild, length_update, hxlt, hplt,
                  hcclt, hccx, hccp, Ne.symm hccx, Ne.symm hccp]
              · simp [parentOf_update, parentOf_setParent, parentOf_setChild,
                  length_setParent, length_setChild, length_update, hvx, hvp,
                  hvcc, Ne.symm hvx, Ne.symm hvp, Ne.symm hvcc]
        · intro v e he
          by_cases hvg : v = g
          · subst hvg
            by_cases hepd : e = pd
            · subst hepd
              simp [childF_update, childF_setParent, childF_setChild,
                length_setParent, length_setChild, length_update, he, hd2, he2,
                hpd2, hglt, hxlt, hplt, hgne_p, hgne_x, hgne_cc, Ne.symm hgne_p,
                Ne.symm hgne_x, Ne.symm hgne_cc, hed]
            · simp [childF_update, childF_setParent, childF_setChild,
                length_setParent, length_setChild, length_update, he, hd2, he2,
                hpd2, hglt, hxlt, hplt, hgne_p, hgne_x, hgne_cc, Ne.symm hgne_p,
                Ne.symm hgne_x, Ne.symm hgne_cc, hed, hepd, Ne.symm hepd]
          · by_cases hvx : v = x
            · subst hvx
              by_cases hee : e = 1 ^^^ d
              · subst hee
                simp [childF_update, childF_setParent, childF_setChild,
                  length_setParent, length_setChild, length_update, he, hd2, he2,
                  hpd2, hxlt, hplt, hpx, hxp, hed, hgne_x, Ne.symm hgne_x, hvg,
                  Ne.symm hvg, hccx, Ne.symm hccx]
              · simp [childF_update, childF_setParent, childF_setChild,
                  length_setParent, length_setChild, length_update, he, hd2, he2,
                  hpd2, hxlt, hplt, hpx, hxp, hed, hee, Ne.symm hee, hgne_x,
                  Ne.symm hgne_x, hvg, Ne.symm hvg, hccx, Ne.symm hccx]
            · by_cases hvp : v = p
              · subst hvp
                by_cases hede : e = d
                · subst hede
                  simp [childF_update, childF_setParent, childF_setChild,
                    length_setParent, length_setChild, length_update, he, hd2,
                    he2, hpd2, hxlt, hplt, hpx, hxp, hed, hgne_p, Ne.symm hgne_p,
                    hvx, hvg, Ne.symm hvg, hccp, Ne.symm hccp]
                · simp [childF_update, childF_setParent, childF_setChild,
                    length_setParent, length_setChild, length_update, he, hd2,
                    he2, hpd2, hxlt, hplt, hpx, hxp, hed, hede, Ne.symm hede,
                    hgne_p, Ne.symm hgne_p, hvx, hvg, Ne.symm hvg, hccp,
                    Ne.symm hccp]
              · simp [childF_update, childF_setParent, childF_setChild_ne,
                  Ne.symm hvx, Ne.symm hvp, Ne.symm hvg, hvx, hvp, hvg, hpd]
        · intro v
          by_cases hvx : v = x
          · subst hvx
            right
            simp [lenOf_update, length_update, length_setParent, length_setChild,
              hxlt, hpx, hxp]
            omega
          · by_cases hvp : v = p
            · subst hvp
              right
              simp [lenOf_update, length_update, length_setParent, length_setChild,
                hplt, hvx, hxp, hpx]
              omega
            · left
              simp [lenOf_update, lenOf_setParent, lenOf_setChild,
                length_update, length_setParent, length_setChild, hvx, hvp,
                Ne.symm hvx, Ne.symm hvp]
        · simp [length_update, length_setParent, length_setChild]

theorem rotate_eq_of_dir_none (σ : Forest) (x : Nat) (h : dirOf σ x = none) :
    rotate σ x = σ := by
  conv_lhs => rw [rotate]
  rw [h]

theorem childOK_of_slots (σ : Forest)
    (h : ∀ q e, e < 2 → ∀ c, childF σ q e = some c → parentOf σ c = some q) :
    childOK σ := by
  intro q e c hq
  by_cases he0 : e = 0
  · subst he0
    exact h q 0 (by omega) c hq
  · rw [childF_of_ne_zero σ q e he0] at hq
    exact h q 1 (by omega) c hq

theorem noSlot_of_slots (σ : Forest) (w : Nat)
    (h : ∀ q e, e < 2 → childF σ q e ≠ some w) : noSlot σ w := by
  intro q e
  by_cases he0 : e = 0
  · subst he0
    exact h q 0 (by omega)
  · rw [childF_of_ne_zero σ q e he0]
    exact h q 1 (by omega)

theorem dirOf_of_slot (σ : Forest) (w q e : Nat) (hNB : notBoth σ)
    (hp : parentOf σ w = some q) (hs : childF σ q e = some w) (he : e < 2) :
    dirOf σ w = some e := by
  unfold dirOf
  simp only [hp]
  rcases (by omega : e = 0 ∨ e = 1) with rfl | rfl
  · rw [if_pos hs]
  · rw [if_neg fun h0 => hNB q w ⟨h0, hs⟩, if_pos hs]

theorem length_rotate (σ : Forest) (x : Nat) :
    (rotate σ x).length = σ.length := by
  rcases hdir : dirOf σ x with _ | d
  · rw [rotate_eq_of_dir_none σ x hdir]
  · rcases hpar : parentOf σ x with _ | p
    · rw [dirOf_none_of_parent_none σ x hpar] at hdir
      exact Option.noConfusion hdir
    · rw [rotate_unfold σ x d p hdir hpar]
      simp only [childF_setParent]
      repeat' split
      all_goals simp [length_update, length_setParent, length_setChild]

theorem rotate_GInv (σ : Forest) (x : Nat) (h : GInv σ) : GInv (rotate σ x) := by
  obtain ⟨hOK, hNB, ⟨rk, hrk⟩, hLen⟩ := h
  rcases hdir : dirOf σ x with _ | d
  · rw [rotate_eq_of_dir_none σ x hdir]
    exact ⟨hOK, hNB, ⟨rk, hrk⟩, hLen⟩
  · rcases hpar : parentOf σ x with _ | p
    · rw [dirOf_none_of_parent_none σ x hpar] at hdir
      exact Option.noConfusion hdir
    · obtain ⟨hP, hC, hL, hLn⟩ := rotate_fields σ x d p hOK rk hrk hdir hpar
      have hd2 : d < 2 := dirOf_lt σ x d hdir
      have he2 : 1 ^^^ d < 2 := xor_lt_two d hd2
      have hed : 1 ^^^ d ≠ d := xor_ne d hd2
      have hslot : childF σ p d = some x := dirOf_slot σ x d p hdir hpar
      have hrkxp : rk p < rk x := hrk x p hpar
      have hxp : x ≠ p := (ne_of_rk_lt hrkxp).symm
      refine ⟨?_, ?_, ?_, ?_⟩
      · -- childOK survives
        refine childOK_of_slots _ fun q e he c' hqe => ?_
        rw [hC q e he] at hqe
        rw [hP c']
        split at hqe
        · next h1 =>
          obtain rfl := Option.some.inj hqe
          rw [if_pos rfl]
          exact h1.1
        · next h1 =>
          split at hqe
          · exact Option.noConfusion hqe
          · split at hqe
            · next h2 h3 =>
              have hccpar : parentOf σ c' = some x := hOK x (1 ^^^ d) c' hqe
              have hrkc : rk x < rk c' := hrk c' x hccpar
              have hccx : c' ≠ x := (ne_of_rk_lt hrkc).symm
              have hccp : c' ≠ p := (ne_of_rk_lt (hrkxp.trans hrkc)).symm
              rw [if_neg hccx, if_neg hccp, if_pos hqe, h3.1]
            · next h2 h3 =>
              have hold : parentOf σ c' = some q := hOK q e c' hqe
              by_cases hcx : c' = x
              · exfalso
                have hqp : q = p := by
                  rw [hcx] at hold
                  exact Option.some.inj (hold.symm.trans hpar)
                have hedq : e ≠ d := fun hh => h3 ⟨hqp, hh⟩
                rw [hcx, hqp] at hqe
                rcases (by omega : (e = 0 ∧ d = 1) ∨ (e = 1 ∧ d = 0)) with
                  ⟨he0, hd1⟩ | ⟨he1, hd0⟩
                · rw [he0] at hqe
                  rw [hd1] at hslot
                  exact hNB p x ⟨hqe, hslot⟩
                · rw [he1] at hqe
                  rw [hd0] at hslot
                  exact hNB p x ⟨hslot, hqe⟩
              · rw [if_neg hcx]
                by_cases hcp : c' = p
                · exfalso
                  have hq : parentOf σ p = some q := hcp ▸ hold
                  have hsq : childF σ q e = some p := hcp ▸ hqe
                  exact h1 ⟨hq, dirOf_of_slot σ p q e hNB hq hsq he⟩
                · rw [if_neg hcp]
                  by_cases hcc : childF σ x (1 ^^^ d) = some c'
                  · exfalso
                    have hccpar : parentOf σ c' = some x := hOK x (1 ^^^ d) c' hcc
                    have hqx : q = x := Option.some.inj (hold.symm.trans hccpar)
                    have hne : e ≠ 1 ^^^ d := fun hh => h2 ⟨hqx, hh⟩
                    have he_d : e = d := by omega
                    rw [hqx, he_d] at hqe
                    rcases (by omega : (d = 0 ∧ 1 ^^^ d = 1) ∨
                        (d = 1 ∧ 1 ^^^ d = 0)) with ⟨hd0, hx1⟩ | ⟨hd1, hx0⟩
                    · rw [hd0] at hqe
                      rw [hx1] at hcc
                      exact hNB x c' ⟨hqe, hcc⟩
                    · rw [hd1] at hqe
                      rw [hx0] at hcc
                      exact hNB x c' ⟨hcc, hqe⟩
                  · rw [if_neg hcc]
                    exact hold
      · -- notBoth survives
        intro q z hzz
        obtain ⟨h0, h1⟩ := hzz
        rw [hC q 0 (by omega)] at h0
        rw [hC q 1 (by omega)] at h1
        split at h0
        · next ha =>
          obtain rfl := Option.some.inj h0
          split at h1
          · next hb =>
            have h01 : (0 : Nat) = 1 := Option.some.inj (ha.2.symm.trans hb.2)
            exact absurd h01 (by omega)
          · next hb =>
            split at h1
            · exact Option.noConfusion h1
            · split at h1
              · next hcnd =>
                have hxx : parentOf σ x = some x := hOK x (1 ^^^ d) x h1
                exact hxp (Option.some.inj (hpar.symm.trans hxx)).symm
              · next hcnd =>
                have hqp : q = p :=
                  Option.some.inj ((hOK q 1 x h1).symm.trans hpar)
                rw [hqp] at ha
                exact absurd rfl (ne_of_rk_lt (hrk p p ha.1))
        · next ha =>
          split at h0
          · exact Option.noConfusion h0
          · split at h0
            · next hc0 =>
              have hzpar : parentOf σ z = some x := hOK x (1 ^^^ d) z h0
              split at h1
              · next he1 =>
                obtain rfl := Option.some.inj h1
                exact absurd rfl (ne_of_rk_lt (hrk x x hzpar))
              · next he1 =>
                split at h1
                · exact Option.noConfusion h1
                · split at h1
                  · next he3 =>
                    exact absurd (hc0.2.trans he3.2.symm) (by omega)
                  · next he3 =>
                    have hqz : parentOf σ z = some q := hOK q 1 z h1
                    have hqx : q = x := Option.some.inj (hqz.symm.trans hzpar)
                    exact hxp (hqx ▸ hc0.1)
            · next hc0 =>
              split at h1
              · next he1 =>
                obtain rfl := Option.some.inj h1
                have hqp : q = p :=
                  Option.some.inj ((hOK q 0 x h0).symm.trans hpar)
                rw [hqp] at he1
                exact absurd rfl (ne_of_rk_lt (hrk p p he1.1))
              · next he1 =>
                split at h1
                · exact Option.noConfusion h1
                · split at h1
                  · next he3 =>
                    have hzpar : parentOf σ z = some x := hOK x (1 ^^^ d) z h1
                    have hqz : parentOf σ z = some q := hOK q 0 z h0
                    have hqx : q = x := Option.some.inj (hqz.symm.trans hzpar)
                    exact hxp (hqx ▸ he3.1)
                  · next he3 =>
                    exact hNB q z ⟨h0, h1⟩
      · -- Ranked survives: x is re-ranked just below its former parent
        have hpx : p ≠ x := Ne.symm hxp
        rcases hgp : parentOf σ p with _ | g
        · refine ⟨fun u => if u = x then rk p - 1 else rk u, ?_⟩
          intro w u hw
          dsimp only
          rw [hP w] at hw
          by_cases hwx : w = x
          · rw [if_pos hwx, hgp] at hw
            exact Option.noConfusion hw
          · rw [if_neg hwx] at hw
            rw [if_neg hwx]
            by_cases hwp : w = p
            · rw [if_pos hwp] at hw
              obtain rfl := (Option.some.inj hw).symm
              rw [if_pos rfl, hwp]
              linarith
            · rw [if_neg hwp] at hw
              by_cases hwc : childF σ x (1 ^^^ d) = some w
              · rw [if_pos hwc] at hw
                obtain rfl := (Option.some.inj hw).symm
                have hrkw : rk x < rk w := hrk w x (hOK x (1 ^^^ d) w hwc)
                rw [if_neg hpx]
                linarith
              · rw [if_neg hwc] at hw
                have hrkw : rk u < rk w := hrk w u hw
                by_cases hux : u = x
                · rw [if_pos hux]
                  rw [hux] at hw
                  have : rk x < rk w := hrk w x hw
                  linarith
                · rw [if_neg hux]
                  exact hrkw
        · have hrkg : rk g < rk p := hrk p g hgp
          have hgx : g ≠ x := ne_of_rk_lt (hrkg.trans hrkxp)
          refine ⟨fun u => if u = x then (rk g + rk p) / 2 else rk u, ?_⟩
          intro w u hw
          dsimp only
          by_cases hwx : w = x
          · rw [hP w, if_pos hwx, hgp] at hw
            obtain rfl := (Option.some.inj hw).symm
            rw [if_pos hwx, if_neg hgx]
            linarith
          · rw [hP w, if_neg hwx] at hw
            rw [if_neg hwx]
            by_cases hwp : w = p
            · rw [if_pos hwp] at hw
              obtain rfl := (Option.some.inj hw).symm
              rw [if_pos rfl, hwp]
              linarith
            · rw [if_neg hwp] at hw
              by_cases hwc : childF σ x (1 ^^^ d) = some w
              · rw [if_pos hwc] at hw
                obtain rfl := (Option.some.inj hw).symm
                have hrkw : rk x < rk w := hrk w x (hOK x (1 ^^^ d) w hwc)
                rw [if_neg hpx]
                linarith
              · rw [if_neg hwc] at hw
                have hrkw : rk u < rk w := hrk w u hw
                by_cases hux : u = x
                · rw [if_pos hux]
                  rw [hux] at hw
                  have : rk x < rk w := hrk w x hw
                  linarith
                · rw [if_neg hux]
                  exact hrkw
      · -- lenInv survives
        intro v hv
        rw [hLn] at hv
        rcases hL v with heq | hge
        · rw [heq]
          exact hLen v hv
        · exact hge

theorem rotate_noSlot (σ : Forest) (x w : Nat) (hOK : childOK σ)
    (hR : Ranked σ) (hns : noSlot σ w) : noSlot (rotate σ x) w := by
  obtain ⟨rk, hrk⟩ := hR
  rcases hdir : dirOf σ x with _ | d
  · rw [rotate_eq_of_dir_none σ x hdir]
    exact hns
  · rcases hpar : parentOf σ x with _ | p
    · rw [dirOf_none_of_parent_none σ x hpar] at hdir
      exact Option.noConfusion hdir
    · obtain ⟨hP, hC, _, _⟩ := rotate_fields σ x d p hOK rk hrk hdir hpar
      have hslot := dirOf_slot σ x d p hdir hpar
      have hwx : x ≠ w := fun h => hns p d (h ▸ hslot)
      refine noSlot_of_slots _ _ fun q e he hqe => ?_
      rw [hC q e he] at hqe
      split at hqe
      · exact hwx (Option.some.inj hqe)
      · split at hqe
        · exact Option.noConfusion hqe
        · split at hqe
          · exact hns x (1 ^^^ d) hqe
          · exact hns q e hqe

theorem rotate_parent_keep (σ : Forest) (x w pw : Nat) (hOK : childOK σ)
    (hR : Ranked σ) (hns : noSlot σ w) (hpw : parentOf σ w = some pw)
    (hy : x = pw ∨ parentOf σ pw = some x) :
    parentOf (rotate σ x) w = some pw := by
  obtain ⟨rk, hrk⟩ := hR
  rcases hdir : dirOf σ x with _ | d
  · rw [rotate_eq_of_dir_none σ x hdir]
    exact hpw
  · rcases hpar : parentOf σ x with _ | p
    · rw [dirOf_none_of_parent_none σ x hpar] at hdir
      exact Option.noConfusion hdir
    · obtain ⟨hP, _, _, _⟩ := rotate_fields σ x d p hOK rk hrk hdir hpar
      have hslot := dirOf_slot σ x d p hdir hpar
      have hwx : w ≠ x := fun h => hns p d (by rw [h]; exact hslot)
      have hwp : w ≠ p := by
        intro h
        rw [h] at hpw
        rcases hy with rfl | hy2
        · have h1 : rk p < rk x := hrk x p hpar
          have h2 : rk x < rk p := hrk p x hpw
          linarith
        · have h1 : rk p < rk x := hrk x p hpar
          have h2 : rk pw < rk p := hrk p pw hpw
          have h3 : rk x < rk pw := hrk pw x hy2
          linarith
      rw [hP w, if_neg hwx, if_neg hwp, if_neg (hns x (1 ^^^ d))]
      exact hpw

theorem pathParent_some (σ : Forest) (v p : Nat)
    (h : pathParent σ v = some p) : parentOf σ v = some p := by
  unfold pathParent at h
  rcases hd : dirOf σ v with _ | dd <;> rw [hd] at h
  · exact Option.noConfusion h
  · exact h

theorem splay_GInv (f : Nat) (x : Nat) :
    ∀ σ σ', GInv σ → splayFuel f σ x = some σ' → GInv σ' := by
  induction f with
  | zero =>
    intro σ σ' _ h
    exact Option.noConfusion h
  | succ f ih =>
    intro σ σ' hG h
    rw [splayFuel] at h
    rcases hpp : pathParent σ x with _ | p <;> rw [hpp] at h
    · obtain rfl := Option.some.inj h
      exact hG
    · have hσ1 : GInv (if isPathRoot σ p then σ
          else if dirOf σ x = dirOf σ p then rotate σ p else rotate σ x) := by
        split_ifs
        · exact hG
        · exact rotate_GInv σ p hG
        · exact rotate_GInv σ x hG
      exact ih _ _ (rotate_GInv _ x hσ1) h

theorem splay_post (f : Nat) (x : Nat) :
    ∀ σ σ', splayFuel f σ x = some σ' → pathParent σ' x = none := by
  induction f with
  | zero =>
    intro σ σ' h
    exact Option.noConfusion h
  | succ f ih =>
    intro σ σ' h
    rw [splayFuel] at h
    rcases hpp : pathParent σ x with _ | p <;> rw [hpp] at h
    · obtain rfl := Option.some.inj h
      exact hpp
    · exact ih _ _ h

theorem splay_noSlot (f : Nat) (x w : Nat) :
    ∀ σ σ', GInv σ → noSlot σ w → splayFuel f σ x = some σ' → noSlot σ' w := by
  induction f with
  | zero =>
    intro σ σ' _ _ h
    exact Option.noConfusion h
  | succ f ih =>
    intro σ σ' hG hns h
    rw [splayFuel] at h
    rcases hpp : pathParent σ x with _ | p <;> rw [hpp] at h
    · obtain rfl := Option.some.inj h
      exact hns
    · have hσ1 : GInv (if isPathRoot σ p then σ
          else if dirOf σ x = dirOf σ p then rotate σ p else rotate σ x) := by
        split_ifs
        · exact hG
        · exact rotate_GInv σ p hG
        · exact rotate_GInv σ x hG
      have hns1 : noSlot (if isPathRoot σ p then σ
          else if dirOf σ x = dirOf σ p then rotate σ p else rotate σ x) w := by
        split_ifs
        · exact hns
        · exact rotate_noSlot σ p w hG.1 hG.2.2.1 hns
        · exact rotate_noSlot σ x w hG.1 hG.2.2.1 hns
      exact ih _ _ (rotate_GInv _ x hσ1)
        (rotate_noSlot _ x w hσ1.1 hσ1.2.2.1 hns1) h

theorem splay_parent_keep (f : Nat) (w pw : Nat) :
    ∀ σ σ', GInv σ → noSlot σ w → parentOf σ w = some pw →
      splayFuel f σ pw = some σ' → parentOf σ' w = some pw := by
  induction f with
  | zero =>
    intro σ σ' _ _ _ h
    exact Option.noConfusion h
  | succ f ih =>
    intro σ σ' hG hns hpw h
    rw [splayFuel] at h
    rcases hpp : pathParent σ pw with _ | p <;> rw [hpp] at h
    · obtain rfl := Option.some.inj h
      exact hpw
    · have hppar : parentOf σ pw = some p := pathParent_some σ pw p hpp
      have hσ1 : GInv (if isPathRoot σ p then σ
          else if dirOf σ pw = dirOf σ p then rotate σ p else rotate σ pw) := by
        split_ifs
        · exact hG
        · exact rotate_GInv σ p hG
        · exact rotate_GInv σ pw hG
      have hns1 : noSlot (if isPathRoot σ p then σ
          else if dirOf σ pw = dirOf σ p then rotate σ p else rotate σ pw) w := by
        split_ifs
        · exact hns
        · exact rotate_noSlot σ p w hG.1 hG.2.2.1 hns
        · exact rotate_noSlot σ pw w hG.1 hG.2.2.1 hns
      have hpw1 : parentOf (if isPathRoot σ p then σ
          else if dirOf σ pw = dirOf σ p then rotate σ p else rotate σ pw) w
            = some pw := by
        split_ifs
        · exact hpw
        · exact rotate_parent_keep σ p w pw hG.1 hG.2.2.1 hns hpw (Or.inr hppar)
        · exact rotate_parent_keep σ pw w pw hG.1 hG.2.2.1 hns hpw (Or.inl rfl)
      exact ih _ _ (rotate_GInv _ pw hσ1)
        (rotate_noSlot _ pw w hσ1.1 hσ1.2.2.1 hns1)
        (rotate_parent_keep _ pw w pw hσ1.1 hσ1.2.2.1 hns1 hpw1 (Or.inl rfl)) h

theorem length_splay (f : Nat) (x : Nat) :
    ∀ σ σ', splayFuel f σ x = some σ' → σ'.length = σ.length := by
  induction f with
  | zero =>
    intro σ σ' h
    exact Option.noConfusion h
  | succ f ih =>
    intro σ σ' h
    rw [splayFuel] at h
    rcases hpp : pathParent σ x with _ | p <;> rw [hpp] at h
    · obtain rfl := Option.some.inj h
      rfl
    · rw [ih _ _ h, length_rotate]
      split_ifs
      · rfl
      · rw [length_rotate]
      · rw [length_rotate]

theorem update_GInv (σ : Forest) (u : Nat) (hG : GInv σ) : GInv (update σ u) := by
  obtain ⟨hOK, hNB, ⟨rk, hrk⟩, hLen⟩ := hG
  refine ⟨?_, ?_, ⟨rk, ?_⟩, ?_⟩
  · intro q e c h
    rw [childF_update] at h
    rw [parentOf_update]
    exact hOK q e c h
  · rintro q z ⟨h0, h1⟩
    rw [childF_update] at h0 h1
    exact hNB q z ⟨h0, h1⟩
  · intro v u' hv
    rw [parentOf_update] at hv
    exact hrk v u' hv
  · intro v hv
    rw [length_update] at hv
    rw [lenOf_update]
    split
    · omega
    · exact hLen v hv

theorem update_noSlot (σ : Forest) (u w : Nat) (h : noSlot σ w) :
    noSlot (update σ u) w := fun q e => by
  rw [childF_update]
  exact h q e

theorem setChild_some_noSlot (σ : Forest) (p e : Nat) (c : Option Nat) (w : Nat)
    (he : e < 2) (hc : c ≠ some w) (hns : noSlot σ w) :
    noSlot (setChild σ p e c) w := by
  refine noSlot_of_slots _ _ fun q e' he' hq => ?_
  rw [childF_setChild σ p e c q e' he he'] at hq
  split at hq
  · exact hc hq
  · exact hns q e' hq

theorem setChild_none_GInv (σ : Forest) (u e : Nat) (he : e < 2) (hG : GInv σ) :
    GInv (setChild σ u e none) := by
  obtain ⟨hOK, hNB, ⟨rk, hrk⟩, hLen⟩ := hG
  refine ⟨?_, ?_, ⟨rk, ?_⟩, ?_⟩
  · refine childOK_of_slots _ fun q e' he' c hq => ?_
    rw [childF_setChild σ u e none q e' he he'] at hq
    rw [parentOf_setChild]
    split at hq
    · exact Option.noConfusion hq
    · exact hOK q e' c hq
  · rintro q z ⟨h0, h1⟩
    rw [childF_setChild σ u e none q 0 he (by omega)] at h0
    rw [childF_setChild σ u e none q 1 he (by omega)] at h1
    split at h0
    · exact Option.noConfusion h0
    · split at h1
      · exact Option.noConfusion h1
      · exact hNB q z ⟨h0, h1⟩
  · intro v u' hv
    rw [parentOf_setChild] at hv
    exact hrk v u' hv
  · intro v hv
    rw [length_setChild] at hv
    rw [lenOf_setChild]
    exact hLen v hv

theorem setChild_attach_GInv (σ : Forest) (p v : Nat) (hG : GInv σ)
    (hpv : parentOf σ v = some p) (hns : noSlot σ v) :
    GInv (setChild σ p 1 (some v)) := by
  obtain ⟨hOK, hNB, ⟨rk, hrk⟩, hLen⟩ := hG
  refine ⟨?_, ?_, ⟨rk, ?_⟩, ?_⟩
  · refine childOK_of_slots _ fun q e' he' c hq => ?_
    rw [childF_setChild σ p 1 (some v) q e' (by omega) he'] at hq
    rw [parentOf_setChild]
    split at hq
    · next hcond =>
      obtain rfl := Option.some.inj hq
      rw [hpv, hcond.1]
    · exact hOK q e' c hq
  · rintro q z ⟨h0, h1⟩
    rw [childF_setChild σ p 1 (some v) q 0 (by omega) (by omega)] at h0
    rw [childF_setChild σ p 1 (some v) q 1 (by omega) (by omega)] at h1
    split at h0
    · next hcond =>
      exact absurd hcond.2.2 (by omega)
    · split at h1
      · next hcond =>
        obtain rfl := Option.some.inj h1
        exact hns q 0 h0
      · exact hNB q z ⟨h0, h1⟩
  · intro w u' hw
    rw [parentOf_setChild] at hw
    exact hrk w u' hw
  · intro w hw
    rw [length_setChild] at hw
    rw [lenOf_setChild]
    exact hLen w hw

theorem dirOf_none_of_pathParent_none (σ : Forest) (v p : Nat)
    (hpp : pathParent σ v = none) (hp : parentOf σ v = some p) :
    dirOf σ v = none := by
  unfold pathParent at hpp
  rcases hdd : dirOf σ v with _ | dd
  · rfl
  · rw [hdd] at hpp
    simp [hp] at hpp

theorem expose_GInv (f : Nat) (v : Nat) :
    ∀ σ σ', GInv σ → exposeFuel f σ v = some σ' → GInv σ' := by
  induction f with
  | zero =>
    intro σ σ' _ h
    exact Option.noConfusion h
  | succ f ih =>
    intro σ σ' hG h
    rw [exposeFuel] at h
    rcases hs1 : splayFuel (f + 1) σ v with _ | σ1 <;> simp only [hs1] at h
    · exact Option.noConfusion h
    · have hG1 : GInv σ1 := splay_GInv (f + 1) v σ σ1 hG hs1
      have hG3 : GInv (update (setChild σ1 v 1 none) v) :=
        update_GInv _ _ (setChild_none_GInv σ1 v 1 (by omega) hG1)
      rcases hp : parentOf (update (setChild σ1 v 1 none) v) v with _ | p <;>
        simp only [hp] at h
      · obtain rfl := Option.some.inj h
        exact hG3
      · rcases hs4 : splayFuel (f + 1) (update (setChild σ1 v 1 none) v) p
          with _ | σ4 <;> rw [hs4] at h
        · exact Option.noConfusion h
        · have hp1 : parentOf σ1 v = some p := by
            rw [parentOf_update, parentOf_setChild] at hp
            exact hp
          have hd1 : dirOf σ1 v = none :=
            dirOf_none_of_pathParent_none σ1 v p (splay_post (f + 1) v σ σ1 hs1) hp1
          have hns3 : noSlot (update (setChild σ1 v 1 none) v) v :=
            update_noSlot _ _ _ (setChild_some_noSlot σ1 v 1 none v (by omega)
              (by simp) (noSlot_of_dir_none σ1 v hG1.1 hd1))
          have hG4 : GInv σ4 := splay_GInv (f + 1) p _ _ hG3 hs4
          have hns4 : noSlot σ4 v := splay_noSlot (f + 1) p v _ _ hG3 hns3 hs4
          have hp4 : parentOf σ4 v = some p :=
            splay_parent_keep (f + 1) v p _ _ hG3 hns3 hp hs4
          have hG6 : GInv (update (setChild σ4 p 1 (some v)) p) :=
            update_GInv _ _ (setChild_attach_GInv σ4 p v hG4 hp4 hns4)
          exact ih _ _ hG6 h

theorem expose_noSlot (f : Nat) (v w : Nat) (hwv : w ≠ v) :
    ∀ σ σ', GInv σ → noSlot σ w → exposeFuel f σ v = some σ' → noSlot σ' w := by
  induction f with
  | zero =>
    intro σ σ' _ _ h
    exact Option.noConfusion h
  | succ f ih =>
    intro σ σ' hG hns h
    rw [exposeFuel] at h
    rcases hs1 : splayFuel (f + 1) σ v with _ | σ1 <;> simp only [hs1] at h
    · exact Option.noConfusion h
    · have hG1 : GInv σ1 := splay_GInv (f + 1) v σ σ1 hG hs1
      have hns1 : noSlot σ1 w := splay_noSlot (f + 1) v w σ σ1 hG hns hs1
      have hG3 : GInv (update (setChild σ1 v 1 none) v) :=
        update_GInv _ _ (setChild_none_GInv σ1 v 1 (by omega) hG1)
      have hns3 : noSlot (update (setChild σ1 v 1 none) v) w :=
        update_noSlot _ _ _ (setChild_some_noSlot σ1 v 1 none w (by omega)
          (by simp) hns1)
      rcases hp : parentOf (update (setChild σ1 v 1 none) v) v with _ | p <;>
        simp only [hp] at h
      · obtain rfl := Option.some.inj h
        exact hns3
      · rcases hs4 : splayFuel (f + 1) (update (setChild σ1 v 1 none) v) p
          with _ | σ4 <;> rw [hs4] at h
        · exact Option.noConfusion h
        · have hG4 : GInv σ4 := splay_GInv (f + 1) p _ _ hG3 hs4
          have hns4 : noSlot σ4 w := splay_noSlot (f + 1) p w _ _ hG3 hns3 hs4
          have hp1 : parentOf σ1 v = some p := by
            rw [parentOf_update, parentOf_setChild] at hp
            exact hp
          have hd1 : dirOf σ1 v = none :=
            dirOf_none_of_pathParent_none σ1 v p (splay_post (f + 1) v σ σ1 hs1) hp1
          have hnsv3 : noSlot (update (setChild σ1 v 1 none) v) v :=
            update_noSlot _ _ _ (setChild_some_noSlot σ1 v 1 none v (by omega)
              (by simp) (noSlot_of_dir_none σ1 v hG1.1 hd1))
          have hnsv4 : noSlot σ4 v := splay_noSlot (f + 1) p v _ _ hG3 hnsv3 hs4
          have hp4 : parentOf σ4 v = some p :=
            splay_parent_keep (f + 1) v p _ _ hG3 hnsv3 hp hs4
          have hG6 : GInv (update (setChild σ4 p 1 (some v)) p) :=
            update_GInv _ _ (setChild_attach_GInv σ4 p v hG4 hp4 hnsv4)
          have hns6 : noSlot (update (setChild σ4 p 1 (some v)) p) w :=
            update_noSlot _ _ _ (setChild_some_noSlot σ4 p 1 (some v) w (by omega)
              (fun hh => hwv (Option.some.inj hh).symm) hns4)
          exact ih _ _ hG6 hns6 h

theorem length_expose (f : Nat) (v : Nat) :
    ∀ σ σ', exposeFuel f σ v = some σ' → σ'.length = σ.length := by
  induction f with
  | zero =>
    intro σ σ' h
    exact Option.noConfusion h
  | succ f ih =>
    intro σ σ' h
    rw [exposeFuel] at h
    rcases hs1 : splayFuel (f + 1) σ v with _ | σ1 <;> simp only [hs1] at h
    · exact Option.noConfusion h
    · have hl1 : σ1.length = σ.length := length_splay (f + 1) v σ σ1 hs1
      rcases hp : parentOf (update (setChild σ1 v 1 none) v) v with _ | p <;>
        simp only [hp] at h
      · obtain rfl := Option.some.inj h
        rw [length_update, length_setChild, hl1]
      · rcases hs4 : splayFuel (f + 1) (update (setChild σ1 v 1 none) v) p
          with _ | σ4 <;> simp only [hs4] at h
        · exact Option.noConfusion h
        · have hl4 : σ4.length = σ1.length := by
            rw [length_splay (f + 1) p _ _ hs4, length_update, length_setChild]
          rw [ih _ _ h, length_update, length_setChild, hl4, hl1]

theorem expose_post (f : Nat) (v : Nat) :
    ∀ σ σ', exposeFuel f σ v = some σ' →
      parentOf σ' v = none ∧ childF σ' v 1 = none ∧
        (v < σ'.length → childF σ' v 0 ≠ some v →
          lenOf σ' v =
            1 + optLen σ' (childF σ' v 0) + optLen σ' (childF σ' v 1)) := by
  induction f with
  | zero =>
    intro σ σ' h
    exact Option.noConfusion h
  | succ f ih =>
    intro σ σ' h
    rw [exposeFuel] at h
    rcases hs1 : splayFuel (f + 1) σ v with _ | σ1 <;> simp only [hs1] at h
    · exact Option.noConfusion h
    · rcases hp : parentOf (update (setChild σ1 v 1 none) v) v with _ | p <;>
        simp only [hp] at h
      · obtain rfl := Option.some.inj h
        refine ⟨hp, ?_, ?_⟩
        · rw [childF_update]
          by_cases hv : v < σ1.length
          · rw [childF_setChild σ1 v 1 none v 1 (by omega) (by omega),
              if_pos ⟨rfl, hv, rfl⟩]
          · exact childF_oob _ v 1 (by rw [length_setChild]; exact hv)
        · intro hvlen hc0
          rw [length_update, length_setChild] at hvlen
          have hch0 : childF (update (setChild σ1 v 1 none) v) v 0 =
              childF (setChild σ1 v 1 none) v 0 := childF_update ..
          have hslot1 : childF (setChild σ1 v 1 none) v 1 = none := by
            rw [childF_setChild σ1 v 1 none v 1 (by omega) (by omega),
              if_pos ⟨rfl, hvlen, rfl⟩]
          have hslot1u : childF (update (setChild σ1 v 1 none) v) v 1 = none := by
            rw [childF_update]
            exact hslot1
          rw [hch0] at hc0
          rw [lenOf_update, if_pos ⟨rfl, by rw [length_setChild]; exact hvlen⟩,
            hch0, hslot1, hslot1u]
          rcases hc00 : childF (setChild σ1 v 1 none) v 0 with _ | c0
          · simp [optLen]
          · have hc0v : c0 ≠ v := fun hh => hc0 (by rw [hc00, hh])
            simp only [optLen]
            rw [lenOf_update, if_neg (fun hx => hc0v hx.1.symm)]
      · rcases hs4 : splayFuel (f + 1) (update (setChild σ1 v 1 none) v) p
          with _ | σ4 <;> simp only [hs4] at h
        · exact Option.noConfusion h
        · exact ih _ _ h

theorem link_GInv (f : Nat) (σ : Forest) (v np : Nat) (σ' : Forest)
    (hG : GInv σ) (hv : v < σ.length) (hvnp : v ≠ np)
    (h : linkFuel f σ v np = some σ') : GInv σ' := by
  rw [linkFuel] at h
  rcases ha : exposeFuel f σ v with _ | σa <;> simp only [ha] at h
  · exact Option.noConfusion h
  · rcases hb : exposeFuel f σa np with _ | σb <;> simp only [hb] at h
    · exact Option.noConfusion h
    · obtain rfl := Option.some.inj h
      have hGa : GInv σa := expose_GInv f v σ σa hG ha
      have hpa : parentOf σa v = none := (expose_post f v σ σa ha).1
      have hnsa : noSlot σa v := noSlot_of_parent_none σa v hGa.1 hpa
      have hGb : GInv σb := expose_GInv f np σa σb hGa hb
      have hnsb : noSlot σb v := expose_noSlot f np v hvnp σa σb hGa hnsa hb
      have hpbnp : parentOf σb np = none := (expose_post f np σa σb hb).1
      have hvb : v < σb.length := by
        rw [length_expose f np σa σb hb, length_expose f v σ σa ha]
        exact hv
      obtain ⟨hOKb, hNBb, ⟨rk, hrk⟩, hLenb⟩ := hGb
      have hGc : GInv (setParent σb v (some np)) := by
        refine ⟨?_, ?_, ?_, ?_⟩
        · intro q e c hq
          rw [childF_setParent] at hq
          rw [parentOf_setParent]
          split
          · next hcond =>
            exact absurd hq (hcond.1 ▸ hnsb q e)
          · exact hOKb q e c hq
        · rintro q z ⟨h0, h1⟩
          rw [childF_setParent] at h0 h1
          exact hNBb q z ⟨h0, h1⟩
        · refine ⟨fun u => if u = np then min (rk np) (rk v) - 1 else rk u, ?_⟩
          intro w u hw
          dsimp only
          rw [parentOf_setParent] at hw
          split at hw
          · next hcond =>
            obtain rfl := hcond.1.symm
            obtain rfl := Option.some.inj hw.symm
            rw [if_pos rfl, if_neg hvnp]
            have h1 := min_le_right (rk u) (rk w)
            linarith
          · have hrkw : rk u < rk w := hrk w u hw
            have hwnp : w ≠ np := by
              intro hh
              rw [hh, hpbnp] at hw
              exact Option.noConfusion hw
            rw [if_neg hwnp]
            by_cases hunp : u = np
            · rw [if_pos hunp]
              rw [hunp] at hrkw
              have h1 := min_le_left (rk np) (rk v)
              linarith
            · rw [if_neg hunp]
              exact hrkw
        · intro w hw
          rw [length_setParent] at hw
          rw [lenOf_setParent]
          exact hLenb w hw
      have hpc : parentOf (setParent σb v (some np)) v = some np :=
        parentOf_setParent_self σb v (some np) hvb
      have hnsc : noSlot (setParent σb v (some np)) v := fun q e => by
        rw [childF_setParent]
        exact hnsb q e
      exact setChild_attach_GInv (setParent σb v (some np)) np v hGc hpc hnsc

theorem cut_GInv (σ : Forest) (v : Nat) (σ' : Forest) (hG : GInv σ)
    (h : cut σ v = some σ') : GInv σ' := by
  rw [cut] at h
  rcases hc : childF σ v 0 with _ | cc <;> simp only [hc] at h
  · exact Option.noConfusion h
  · obtain rfl := Option.some.inj h
    obtain ⟨hOK, hNB, ⟨rk, hrk⟩, hLen⟩ := hG
    have hccpar : parentOf σ cc = some v := hOK v 0 cc hc
    have hvlt : v < σ.length := childF_lt σ v 0 cc hc
    have hns2 : noSlot (setChild σ v 0 none) cc := by
      refine noSlot_of_slots _ _ fun q e he hq => ?_
      rw [childF_setChild σ v 0 none q e (by omega) he] at hq
      split at hq
      · exact Option.noConfusion hq
      · next hncond =>
        have hqv : q = v :=
          Option.some.inj ((hOK q e cc hq).symm.trans hccpar)
        rcases (by omega : e = 0 ∨ e = 1) with rfl | rfl
        · exact hncond ⟨hqv.symm, hvlt, rfl⟩
        · rw [hqv] at hq
          exact hNB v cc ⟨hc, hq⟩
    refine ⟨?_, ?_, ⟨rk, ?_⟩, ?_⟩
    · intro q e c hq
      rw [childF_setParent] at hq
      rw [parentOf_setParent]
      split
      · next hcond =>
        exact absurd hq (hcond.1 ▸ hns2 q e)
      · rw [parentOf_setChild]
        by_cases he0 : e = 0
        · subst he0
          rw [childF_setChild σ v 0 none q 0 (by omega) (by omega)] at hq
          split at hq
          · exact Option.noConfusion hq
          · exact hOK q 0 c hq
        · rw [childF_of_ne_zero _ q e he0,
            childF_setChild σ v 0 none q 1 (by omega) (by omega)] at hq
          split at hq
          · exact Option.noConfusion hq
          · exact hOK q 1 c hq
    · rintro q z ⟨h0, h1⟩
      rw [childF_setParent,
        childF_setChild σ v 0 none q 0 (by omega) (by omega)] at h0
      rw [childF_setParent,
        childF_setChild σ v 0 none q 1 (by omega) (by omega)] at h1
      split at h0
      · exact Option.noConfusion h0
      · split at h1
        · exact Option.noConfusion h1
        · exact hNB q z ⟨h0, h1⟩
    · intro w u hw
      rw [parentOf_setParent] at hw
      split at hw
      · exact Option.noConfusion hw
      · rw [parentOf_setChild] at hw
        exact hrk w u hw
    · intro w hw
      rw [length_setParent, length_setChild] at hw
      rw [lenOf_setParent, lenOf_setChild]
      exact hLen w hw

theorem getN_append (σ : Forest) (n : LCTNode) (v : Nat) :
    getN (σ ++ [n]) v =
      if v < σ.length then getN σ v else if v = σ.length then n else default := by
  unfold getN
  simp only [List.getD_eq_getElem?_getD, List.getElem?_append]
  by_cases hv : v < σ.length
  · rw [if_pos hv, if_pos hv]
  · rw [if_neg hv, if_neg hv]
    by_cases hv' : v = σ.length
    · rw [if_pos hv']
      subst hv'
      simp
    · rw [if_neg hv', List.getElem?_eq_none (l := [n]) (by simp; omega)]
      rfl

theorem parentOf_append (σ : Forest) (v : Nat) :
    parentOf (σ ++ [newNode]) v =
      if v < σ.length then parentOf σ v else none := by
  unfold parentOf
  rw [getN_append]
  split
  · rfl
  · split <;> rfl

theorem childF_append (σ : Forest) (v e : Nat) :
    childF (σ ++ [newNode]) v e =
      if v < σ.length then childF σ v e else none := by
  unfold childF
  rw [getN_append]
  split
  · rfl
  · split <;> (unfold childN; split <;> rfl)

theorem new_GInv (σ : Forest) (hG : GInv σ) : GInv (σ ++ [newNode]) := by
  obtain ⟨hOK, hNB, ⟨rk, hrk⟩, hLen⟩ := hG
  refine ⟨?_, ?_, ⟨rk, ?_⟩, ?_⟩
  · intro q e c hq
    rw [childF_append] at hq
    rw [parentOf_append]
    split at hq
    · have := hOK q e c hq
      rw [if_pos (parentOf_lt σ c q this)]
      exact this
    · exact Option.noConfusion hq
  · rintro q z ⟨h0, h1⟩
    rw [childF_append] at h0 h1
    by_cases hq : q < σ.length
    · rw [if_pos hq] at h0 h1
      exact hNB q z ⟨h0, h1⟩
    · rw [if_neg hq] at h0
      exact Option.noConfusion h0
  · intro w u hw
    rw [parentOf_append] at hw
    split at hw
    · exact hrk w u hw
    · exact Option.noConfusion hw
  · intro w hw
    rw [List.length_append, List.length_singleton] at hw
    unfold lenOf
    rw [getN_append]
    by_cases hwl : w < σ.length
    · rw [if_pos hwl]
      exact hLen w hwl
    · rw [if_neg hwl, if_pos (by omega)]
      exact Nat.le_refl 1

theorem getN_initForest (n v : Nat) :
    getN (initForest n) v = if v < n then newNode else default := by
  unfold getN initForest
  simp only [List.getD_eq_getElem?_getD]
  by_cases hv : v < n
  · rw [if_pos hv, List.getElem?_replicate_of_lt hv]
    rfl
  · rw [if_neg hv, List.getElem?_eq_none (by simp; omega)]
    rfl

theorem initForest_GInv (n : Nat) : GInv (initForest n) := by
  refine ⟨?_, ?_, ⟨fun _ => 0, ?_⟩, ?_⟩
  · intro q e c hq
    exfalso
    unfold childF at hq
    rw [getN_initForest] at hq
    revert hq
    split <;> (unfold childN; split <;> exact fun h => Option.noConfusion h)
  · rintro q z ⟨h0, h1⟩
    unfold childF at h0
    rw [getN_initForest] at h0
    by_cases hq : q < n
    · rw [if_pos hq] at h0
      exact Option.noConfusion h0
    · rw [if_neg hq] at h0
      exact Option.noConfusion h0
  · intro w u hw
    exfalso
    unfold parentOf at hw
    rw [getN_initForest] at hw
    revert hw
    split <;> exact fun h => Option.noConfusion h
  · intro w hw
    unfold lenOf
    rw [getN_initForest, if_pos (by simpa [initForest] using hw)]
    exact Nat.le_refl 1

/-- One public operation of the library, invoked on node handles of the
arena (`link` carries its documented caller contract: both handles are
real nodes and the call does not ask a node to become its own parent —
the spec leaves such cycle-creating calls undefined). -/
inductive Step : Forest → Forest → Prop
  | newStep (σ : Forest) : Step σ (σ ++ [newNode])
  | updateStep (σ : Forest) (v : Nat) : Step σ (update σ v)
  | rotateStep (σ : Forest) (v : Nat) : Step σ (rotate σ v)
  | splayStep (σ : Forest) (v f : Nat) (σ' : Forest) :
      splayFuel f σ v = some σ' → Step σ σ'
  | exposeStep (σ : Forest) (v f : Nat) (σ' : Forest) :
      exposeFuel f σ v = some σ' → Step σ σ'
  | linkStep (σ : Forest) (v np f : Nat) (σ' : Forest) :
      v < σ.length → np < σ.length → v ≠ np →
      linkFuel f σ v np = some σ' → Step σ σ'
  | cutStep (σ : Forest) (v : Nat) (σ' : Forest) :
      cut σ v = some σ' → Step σ σ'

/-- States reachable from a forest of freshly created singletons by
public operations. -/
inductive Reachable : Forest → Prop
  | init (n : Nat) : Reachable (initForest n)
  | step (σ σ' : Forest) : Reachable σ → Step σ σ' → Reachable σ'

theorem step_GInv (σ σ' : Forest) (hG : GInv σ) (h : Step σ σ') : GInv σ' := by
  cases h with
  | newStep => exact new_GInv σ hG
  | updateStep v => exact update_GInv σ v hG
  | rotateStep v => exact rotate_GInv σ v hG
  | splayStep v f _ hs => exact splay_GInv f v σ σ' hG hs
  | exposeStep v f _ he => exact expose_GInv f v σ σ' hG he
  | linkStep v np f _ hv hnp hne hl => exact link_GInv f σ v np σ' hG hv hne hl
  | cutStep v _ hc => exact cut_GInv σ v σ' hG hc

theorem reachable_GInv (σ : Forest) (h : Reachable σ) : GInv σ := by
  induction h with
  | init n => exact initForest_GInv n
  | step σ0 σ1 _ hstep ih => exact step_GInv σ0 σ1 ih hstep

theorem setN_getN (σ : Forest) (v : Nat) : setN σ v (getN σ v) = σ := by
  unfold setN getN
  by_cases hv : v < σ.length
  · apply List.ext_getElem?
    intro j
    rw [List.getElem?_set]
    by_cases hj : v = j
    · rw [if_pos hj, if_pos hv, ← hj, List.getD_eq_getElem?_getD,
        List.getElem?_eq_getElem hv]
      rfl
    · rw [if_neg hj]
  · exact List.set_eq_of_length_le (Nat.le_of_not_lt hv)

theorem setChildN_same (n : LCTNode) (e : Nat) (c : Option Nat) (he : e < 2)
    (h : childN n e = c) : setChildN n e c = n := by
  cases n with
  | mk pp ll rr ln =>
    rcases (by omega : e = 0 ∨ e = 1) with rfl | rfl
    · unfold childN at h
      simp only [if_pos rfl] at h
      unfold setChildN
      simp [← h]
    · unfold childN at h
      simp only [if_neg one_ne_zero] at h
      unfold setChildN
      simp [← h]

theorem setChild_same (σ : Forest) (v e : Nat) (c : Option Nat) (he : e < 2)
    (h : childF σ v e = c) : setChild σ v e c = σ := by
  unfold setChild
  rw [setChildN_same (getN σ v) e c he h]
  exact setN_getN σ v

theorem eta_len (n : LCTNode) : { n with len := n.len } = n := by
  cases n
  rfl

theorem update_same (σ : Forest) (v : Nat)
    (h : lenOf σ v = 1 + optLen σ (childF σ v 0) + optLen σ (childF σ v 1)) :
    update σ v = σ := by
  unfold update
  rw [← h]
  rw [show { getN σ v with len := lenOf σ v } = getN σ v from eta_len _]
  exact setN_getN σ v

/-- C6 — expose is idempotent in outcome: an `expose(v)` that
completed leaves a state on which running `expose(v)` again (same fuel)
changes nothing: the splay finds `v` already a path root, the right
slot is already empty, and the aggregate recomputation rewrites the
value `update` just wrote. -/
theorem expose_idempotent (f : Nat) (σ : Forest) (v : Nat) (σ' : Forest)
    (hr : Reachable σ) (h : exposeFuel f σ v = some σ') :
    exposeFuel f σ' v = some σ' := by
  obtain ⟨hpar, hch1, hlen⟩ := expose_post f v σ σ' h
  have hG' : GInv σ' :=
    reachable_GInv σ' (Reachable.step σ σ' hr (Step.exposeStep σ v f σ' h))
  have hset : setChild σ' v 1 none = σ' := setChild_same σ' v 1 none (by omega) hch1
  have hupd : update σ' v = σ' := by
    by_cases hv : v < σ'.length
    · have hc0 : childF σ' v 0 ≠ some v := by
        intro hc
        have := hG'.1 v 0 v hc
        rw [hpar] at this
        exact Option.noConfusion this
      exact update_same σ' v (hlen hv hc0)
    · unfold update
      exact setN_oob _ v _ hv
  rcases f with _ | f
  · exact Option.noConfusion h
  · rw [exposeFuel]
    have hpp : pathParent σ' v = none := by
      unfold pathParent
      rw [dirOf_none_of_parent_none σ' v hpar]
      rfl
    have hsp : splayFuel (f + 1) σ' v = some σ' := by
      rw [splayFuel, hpp]
    simp only [hsp, hset, hupd, hpar]

/-- C3 — mutual parent-child consistency is an invariant of the
public operations: in every reachable state, a node held in a `children`
slot has that holder as its `parent`, and consequently no node is held
as a child of two different parents. -/
theorem parent_child_consistency (σ : Forest) (h : Reachable σ) :
    (∀ p d c, childF σ p d = some c → parentOf σ c = some p) ∧
    (∀ c p1 d1 p2 d2, childF σ p1 d1 = some c → childF σ p2 d2 = some c →
      p1 = p2) := by
  have hOK := (reachable_GInv σ h).1
  exact ⟨hOK, fun c p1 d1 p2 d2 h1 h2 =>
    Option.some.inj ((hOK p1 d1 c h1).symm.trans (hOK p2 d2 c h2))⟩

/-- Witness for `parent_child_consistency` on a concrete reachable
state: two freshly created singletons after `link(1, 0)`, where node 0
holds node 1 in its right slot and node 1's parent is node 0. -/
theorem parent_child_consistency_witness :
    childF [⟨none, none, some 1, 1⟩, ⟨some 0, none, none, 1⟩] 0 1 = some 1 ∧
      parentOf [⟨none, none, some 1, 1⟩, ⟨some 0, none, none, 1⟩] 1 = some 0 :=
  ⟨by decide,
    (parent_child_consistency _
      (Reachable.step _ _ (Reachable.init 2)
        (Step.linkStep _ 1 0 9 _ (by decide) (by decide) (by decide)
          (by decide)))).1 0 1 1 (by decide)⟩

/-- C9 — every node's aggregate is at least 1 in every reachable
state: `new()` starts nodes at 1 and `update` always recomputes
`1 + children`, and no other code writes the aggregate. -/
theorem aggregate_positive (σ : Forest) (h : Reachable σ) :
    ∀ v, v < σ.length → 1 ≤ lenOf σ v :=
  (reachable_GInv σ h).2.2.2

/-- Witness for `aggregate_positive` at a singleton forest. -/
theorem aggregate_positive_witness : 1 ≤ lenOf (initForest 1) 0 :=
  aggregate_positive (initForest 1) (Reachable.init 1) 0 (by decide)

/-- C4 — immediately after `update(v)`, `v`'s aggregate equals
1 plus the aggregate of its left child plus the aggregate of its right
child (an absent child contributing 0), all read in the state after the
update. -/
theorem update_recomputes_aggregate (σ : Forest) (v : Nat) (h : Reachable σ)
    (hv : v < σ.length) :
    lenOf (update σ v) v =
      1 + optLen (update σ v) (childF (update σ v) v 0)
        + optLen (update σ v) (childF (update σ v) v 1) := by
  obtain ⟨hOK, _, ⟨rk, hrk⟩, _⟩ := reachable_GInv σ h
  have hself : ∀ e, childF σ v e ≠ some v := fun e hh =>
    absurd rfl (ne_of_rk_lt (hrk v v (hOK v e v hh)))
  rw [childF_update, childF_update, lenOf_update, if_pos ⟨rfl, hv⟩]
  have harm : ∀ o : Option Nat, o ≠ some v → optLen (update σ v) o = optLen σ o := by
    intro o ho
    rcases o with _ | c
    · rfl
    · have hcv : c ≠ v := fun hh => ho (by rw [hh])
      simp only [optLen]
      rw [lenOf_update, if_neg (fun hx => hcv hx.1.symm)]
  rw [harm (childF σ v 0) (hself 0), harm (childF σ v 1) (hself 1)]

/-- Witness for `update_recomputes_aggregate` at a fresh singleton. -/
theorem update_recomputes_aggregate_witness :
    lenOf (update (initForest 1) 0) 0 =
      1 + optLen (update (initForest 1) 0) (childF (update (initForest 1) 0) 0 0)
        + optLen (update (initForest 1) 0) (childF (update (initForest 1) 0) 0 1) :=
  update_recomputes_aggregate (initForest 1) 0 (Reachable.init 1) (by decide)

/-- Witness for `expose_idempotent`: on a freshly created singleton,
`expose` succeeds with fuel 1 and returns the state unchanged, and
re-running it again returns the same state. -/
theorem expose_idempotent_witness :
    exposeFuel 1 (initForest 1) 0 = some (initForest 1) :=
  expose_idempotent 1 (initForest 1) 0 (initForest 1) (Reachable.init 1)
    (by decide)
